import Mathlib

/-!
Verification development for the change-propagation core of the aggregation
module (`crates/turbo-tasks-memory/src/aggregation/change.rs`).

`NodeRef` is modelled as `Nat`; a node hierarchy is a total map
`Nat → AggregationNode D`, so every reference is resolvable (§7 of the spec:
operations are total given a resolvable `NodeRef`).  The small-buffer
`StackVec` is modelled as a plain `List` (§4.4: purely a performance
concern).  Mutation through a guard is modelled by explicit state passing.
-/

/-- Modelled from the spec: the `AggregationContext` trait is declared in the
aggregation module root, which is not among the reviewed sources.  §4.1 gives
its merge operation `apply_change(data: &mut Data, change: &DataChange) ->
Option<DataChange>`: merge `change` into `data` in place and return the delta
to forward, or nothing if fully absorbed.  We model it as a pure function
returning the updated data together with the optional forwarded delta. -/
structure Ctx (D Δ : Type) where
  applyChange : D → Δ → D × Option Δ

/-- `AggregationNode<I, D>`: a `Leaf` holds only its upper links, an
`Aggegating` node (the source's spelling) holds aggregate data and upper
links. -/
inductive AggregationNode (D : Type) where
  | Leaf (uppers : List Nat)
  | Aggegating (data : D) (uppers : List Nat)
deriving DecidableEq

/-- `PreparedChange<C>`: uppers snapshot plus the owned change to forward. -/
structure PreparedChange (Δ : Type) where
  uppers : List Nat
  change : Δ
deriving DecidableEq

/-- `PreparedChangeRef<'l, C>`: uppers snapshot plus either a borrowed or an
owned change. -/
inductive PreparedChangeRef (Δ : Type) where
  | Borrowed (uppers : List Nat) (change : Δ)
  | Owned (uppers : List Nat) (change : Δ)
deriving DecidableEq

/-- The `(uppers, change)` pair a `PreparedChangeRef` stands for (the source's
`match` at the start of `PreparedChangeRef::apply`). -/
def PreparedChangeRef.unpack {Δ : Type} : PreparedChangeRef Δ → List Nat × Δ
  | .Borrowed uppers change => (uppers, change)
  | .Owned uppers change => (uppers, change)

/-- `AggregationNode::apply_change` (change.rs lines 7–32): a leaf forwards the
change verbatim to its uppers when it has any; an aggregating node runs the
context's merge on its data and forwards the returned delta when it has uppers
and the merge returned one. -/
def AggregationNode.apply_change {D Δ : Type} (n : AggregationNode D)
    (ctx : Ctx D Δ) (change : Δ) :
    AggregationNode D × Option (PreparedChange Δ) :=
  match n with
  | .Leaf uppers =>
      (.Leaf uppers, if uppers.isEmpty then none else some ⟨uppers, change⟩)
  | .Aggegating data uppers =>
      let r := ctx.applyChange data change
      (.Aggegating r.1 uppers,
        if uppers.isEmpty then none
        else
          match r.2 with
          | some c => some ⟨uppers, c⟩
          | none => none)

/-- `AggregationNode::apply_change_ref` (change.rs lines 34–61): same decision
as `apply_change`, but the leaf case keeps a borrowed change and the
aggregating case owns the freshly returned delta. -/
def AggregationNode.apply_change_ref {D Δ : Type} (n : AggregationNode D)
    (ctx : Ctx D Δ) (change : Δ) :
    AggregationNode D × Option (PreparedChangeRef Δ) :=
  match n with
  | .Leaf uppers =>
      (.Leaf uppers,
        if uppers.isEmpty then none else some (.Borrowed uppers change))
  | .Aggegating data uppers =>
      let r := ctx.applyChange data change
      (.Aggegating r.1 uppers,
        if uppers.isEmpty then none
        else
          match r.2 with
          | some c => some (.Owned uppers c)
          | none => none)

/-- A node hierarchy state: every `NodeRef` resolves to a node. -/
abbrev AggState (D : Type) := Nat → AggregationNode D

/-- Writing one node back through its guard. -/
def setNode {D : Type} (s : AggState D) (i : Nat) (n : AggregationNode D) :
    AggState D :=
  fun j => if j = i then n else s j

/-- A context wrapper that counts merge invocations in the data itself, used
to express "the merge is invoked exactly once" claims. -/
def countingCtx {D Δ : Type} (ctx : Ctx D Δ) : Ctx (D × Nat) Δ :=
  ⟨fun dk change =>
    let r := ctx.applyChange dk.1 change
    ((r.1, dk.2 + 1), r.2)⟩

/-- The upper links of a node (either variant). -/
def AggregationNode.uppersOf {D : Type} : AggregationNode D → List Nat
  | .Leaf uppers => uppers
  | .Aggegating _ uppers => uppers

/-- Whether a node is the `Leaf` variant. -/
def AggregationNode.isLeaf {D : Type} : AggregationNode D → Bool
  | .Leaf _ => true
  | .Aggegating _ _ => false

/-- One prepare pass over an uppers snapshot (the `filter_map` loops in
`PreparedChange::apply` and `PreparedChangeRef::apply`, change.rs lines 72–76
and 99–102): each upper is resolved and locked one at a time, runs
`apply_change_ref`, is written back, and its prepared item (if any) is
collected. -/
def prepareLevel {D Δ : Type} (ctx : Ctx D Δ) (change : Δ) :
    AggState D → List Nat → AggState D × List (PreparedChangeRef Δ)
  | s, [] => (s, [])
  | s, u :: rest =>
      let r := (s u).apply_change_ref ctx change
      let rec1 := prepareLevel ctx change (setNode s u r.1) rest
      (rec1.1,
        match r.2 with
        | some pr => pr :: rec1.2
        | none => rec1.2)

/-- One level of the apply recursion: run the prepare pass of every item of
the level and collect all items of the next level. -/
def processLevel {D Δ : Type} (ctx : Ctx D Δ) :
    AggState D → List (PreparedChangeRef Δ) →
      AggState D × List (PreparedChangeRef Δ)
  | s, [] => (s, [])
  | s, it :: rest =>
      let r1 := prepareLevel ctx it.unpack.2 s it.unpack.1
      let r2 := processLevel ctx r1.1 rest
      (r2.1, r1.2 ++ r2.2)

/-- Modelled from the spec: the `PreparedOperation` implementation for a
collection (`StackVec`) of prepared items lives in the aggregation module
root, which is not among the reviewed sources.  §4.3: "the set of prepared
items produced at one level becomes the next level's work, until a level
produces no further prepared items."  Recursion depth is bounded by an
explicit fuel; `none` means the fuel was exhausted before a level came up
empty. -/
def applyLevels {D Δ : Type} (ctx : Ctx D Δ) :
    Nat → AggState D → List (PreparedChangeRef Δ) → Option (AggState D)
  | _, s, [] => some s
  | 0, _, _ :: _ => none
  | fuel + 1, s, it :: rest =>
      applyLevels ctx fuel (processLevel ctx s (it :: rest)).1
        (processLevel ctx s (it :: rest)).2

/-- `PreparedChange::apply` (change.rs lines 71–78): prepare each upper of the
item, then apply the collected items. -/
def PreparedChange.apply {D Δ : Type} (p : PreparedChange Δ) (ctx : Ctx D Δ)
    (fuel : Nat) (s : AggState D) : Option (AggState D) :=
  applyLevels ctx fuel (prepareLevel ctx p.change s p.uppers).1
    (prepareLevel ctx p.change s p.uppers).2

/-- `PreparedChangeRef::apply` (change.rs lines 94–104): unpack the borrowed
or owned change, prepare each upper, then apply the collected items. -/
def PreparedChangeRef.apply {D Δ : Type} (p : PreparedChangeRef Δ)
    (ctx : Ctx D Δ) (fuel : Nat) (s : AggState D) : Option (AggState D) :=
  applyLevels ctx fuel (prepareLevel ctx p.unpack.2 s p.unpack.1).1
    (prepareLevel ctx p.unpack.2 s p.unpack.1).2

/-- Top-level `apply_change` (change.rs lines 107–111): one prepare step on
the origin node under the caller-supplied guard, write-back and guard drop,
then the apply recursion. -/
def apply_change {D Δ : Type} (ctx : Ctx D Δ) (fuel : Nat) (s : AggState D)
    (origin : Nat) (change : Δ) : Option (AggState D) :=
  let r := (s origin).apply_change ctx change
  match r.2 with
  | none => some (setNode s origin r.1)
  | some p => p.apply ctx fuel (setNode s origin r.1)

/-- Top-level `apply_change_ref` (change.rs lines 113–121). -/
def apply_change_ref {D Δ : Type} (ctx : Ctx D Δ) (fuel : Nat)
    (s : AggState D) (origin : Nat) (change : Δ) : Option (AggState D) :=
  let r := (s origin).apply_change_ref ctx change
  match r.2 with
  | none => some (setNode s origin r.1)
  | some p => p.apply ctx fuel (setNode s origin r.1)

/-- Test context from spec §8: integer counter, the merge adds the delta and
always reports it forward. -/
def addCtx : Ctx Int Int :=
  ⟨fun d c => (d + c, some c)⟩

/-- Test context from spec §8's concrete scenario: add the delta to the data
and forward it only when the data crosses from `0` to non-zero. -/
def boundaryCtx : Ctx Int Int :=
  ⟨fun d c => (d + c, if d = 0 ∧ d + c ≠ 0 then some c else none)⟩

/-- The spec §8 fixture hierarchy: leaf `0` → aggregating `1` (A) →
aggregating `2` (R), both aggregates initialized to `0`. -/
def fixtureState : AggState Int := fun n =>
  match n with
  | 0 => .Leaf [1]
  | 1 => .Aggegating 0 [2]
  | 2 => .Aggegating 0 []
  | _ => .Leaf []

/-- A single aggregating propagation root holding `0`. -/
def rootState : AggState Int := fun _ => .Aggegating 0 []

/-- C1: for an Aggregating node, `apply_change` invokes the context's merge
exactly once on the node's data (witnessed by the invocation counter rising by
one), persists the merge's data update in every case, and returns a prepared
item (carrying the merge's returned delta and the uppers snapshot) iff the
uppers are non-empty and the merge returned a delta; with no uppers nothing is
returned regardless of the merge result.  Both entry forms behave so. -/
theorem C1_aggregating_merges_once {D Δ : Type} (ctx : Ctx D Δ) (d : D)
    (uppers : List Nat) (change : Δ) :
    ((AggregationNode.Aggegating d uppers).apply_change ctx change =
      (.Aggegating (ctx.applyChange d change).1 uppers,
        if uppers.isEmpty then none
        else ((ctx.applyChange d change).2).map fun c => ⟨uppers, c⟩))
    ∧ ((AggregationNode.Aggegating d uppers).apply_change_ref ctx change =
      (.Aggegating (ctx.applyChange d change).1 uppers,
        if uppers.isEmpty then none
        else ((ctx.applyChange d change).2).map fun c => .Owned uppers c))
    ∧ (∀ k : Nat,
      ((AggregationNode.Aggegating (d, k) uppers).apply_change
          (countingCtx ctx) change).1 =
        .Aggegating ((ctx.applyChange d change).1, k + 1) uppers)
    ∧ (∀ k : Nat,
      ((AggregationNode.Aggegating (d, k) uppers).apply_change_ref
          (countingCtx ctx) change).1 =
        .Aggegating ((ctx.applyChange d change).1, k + 1) uppers) := by
  refine ⟨?_, ?_, fun k => rfl, fun k => rfl⟩ <;>
    simp only [AggregationNode.apply_change, AggregationNode.apply_change_ref] <;>
    cases h : (ctx.applyChange d change).2 <;> simp [h]

/-- C2: for a Leaf node, neither entry form consults the context at all (the
result is the same for any two contexts), the node is returned unchanged, a
non-empty uppers set yields a prepared item with the unchanged incoming change
and the uppers snapshot, and an empty uppers set yields no prepared work. -/
theorem C2_leaf_never_merges {D Δ : Type} (ctx ctx' : Ctx D Δ)
    (uppers : List Nat) (change : Δ) :
    ((AggregationNode.Leaf uppers : AggregationNode D).apply_change ctx change =
      (.Leaf uppers,
        if uppers.isEmpty then none else some ⟨uppers, change⟩))
    ∧ ((AggregationNode.Leaf uppers : AggregationNode D).apply_change_ref ctx
        change =
      (.Leaf uppers,
        if uppers.isEmpty then none else some (.Borrowed uppers change)))
    ∧ ((AggregationNode.Leaf uppers : AggregationNode D).apply_change ctx
        change =
      (AggregationNode.Leaf uppers : AggregationNode D).apply_change ctx'
        change)
    ∧ ((AggregationNode.Leaf uppers : AggregationNode D).apply_change_ref ctx
        change =
      (AggregationNode.Leaf uppers : AggregationNode D).apply_change_ref ctx'
        change) := by
  exact ⟨rfl, rfl, rfl, rfl⟩

/-- C5: on every node state and change, the owned form `apply_change` and the
borrowed form `apply_change_ref` leave the node in the same final state and
make the same forwarding decision: the prepared items they return (if any)
carry the same uppers snapshot and the same forwarded change. -/
theorem C5_owned_ref_equivalent {D Δ : Type} (ctx : Ctx D Δ)
    (n : AggregationNode D) (change : Δ) :
    ((n.apply_change_ref ctx change).1 = (n.apply_change ctx change).1)
    ∧ ((n.apply_change_ref ctx change).2.map PreparedChangeRef.unpack =
      (n.apply_change ctx change).2.map fun p => (p.uppers, p.change)) := by
  cases n with
  | Leaf uppers =>
      by_cases h : uppers.isEmpty <;>
        simp [AggregationNode.apply_change, AggregationNode.apply_change_ref,
          h, PreparedChangeRef.unpack]
  | Aggegating data uppers =>
      by_cases h : uppers.isEmpty <;>
        cases hm : (ctx.applyChange data change).2 <;>
          simp [AggregationNode.apply_change,
            AggregationNode.apply_change_ref, h, hm, PreparedChangeRef.unpack]

/-- A prepared item returned by `apply_change` snapshots exactly the node's
uppers, which are then non-empty. -/
theorem prepared_of_apply_change {D Δ : Type} (ctx : Ctx D Δ)
    (n : AggregationNode D) (change : Δ) (p : PreparedChange Δ)
    (h : (n.apply_change ctx change).2 = some p) :
    p.uppers = n.uppersOf ∧ p.uppers ≠ [] := by
  cases n with
  | Leaf uppers =>
      dsimp only [AggregationNode.apply_change] at h
      split at h
      next hemp => exact Option.noConfusion h
      next hemp =>
        injection h with h2
        subst h2
        exact ⟨rfl, by simpa [List.isEmpty_iff] using hemp⟩
  | Aggegating data uppers =>
      dsimp only [AggregationNode.apply_change] at h
      split at h
      next hemp => exact Option.noConfusion h
      next hemp =>
        split at h
        next c hm =>
            injection h with h2
            subst h2
            exact ⟨rfl, by simpa [List.isEmpty_iff] using hemp⟩
        next hm => exact Option.noConfusion h

/-- A prepared item returned by `apply_change_ref` snapshots exactly the
node's uppers, which are then non-empty. -/
theorem prepared_of_apply_change_ref {D Δ : Type} (ctx : Ctx D Δ)
    (n : AggregationNode D) (change : Δ) (q : PreparedChangeRef Δ)
    (h : (n.apply_change_ref ctx change).2 = some q) :
    q.unpack.1 = n.uppersOf ∧ q.unpack.1 ≠ [] := by
  cases n with
  | Leaf uppers =>
      dsimp only [AggregationNode.apply_change_ref] at h
      split at h
      next hemp => exact Option.noConfusion h
      next hemp =>
        injection h with h2
        subst h2
        exact ⟨rfl, by simpa [List.isEmpty_iff] using hemp⟩
  | Aggegating data uppers =>
      dsimp only [AggregationNode.apply_change_ref] at h
      split at h
      next hemp => exact Option.noConfusion h
      next hemp =>
        split at h
        next c hm =>
            injection h with h2
            subst h2
            exact ⟨rfl, by simpa [List.isEmpty_iff] using hemp⟩
        next hm => exact Option.noConfusion h

/-- C10: every prepared item either entry form ever returns has a non-empty
uppers snapshot (in cons form, so the apply phase always has a first upper
node to resolve and lock); an empty uppers list never reaches the apply
phase. -/
theorem C10_prepared_nonempty {D Δ : Type} (ctx : Ctx D Δ)
    (n m : AggregationNode D) (c c' : Δ) (p : PreparedChange Δ)
    (q : PreparedChangeRef Δ)
    (hp : (n.apply_change ctx c).2 = some p)
    (hq : (m.apply_change_ref ctx c').2 = some q) :
    p.uppers ≠ [] ∧ q.unpack.1 ≠ [] ∧
    (∃ u rest, p.uppers = u :: rest) ∧ ∃ u rest, q.unpack.1 = u :: rest := by
  have h1 := (prepared_of_apply_change ctx n c p hp).2
  have h2 := (prepared_of_apply_change_ref ctx m c' q hq).2
  exact ⟨h1, h2, List.exists_cons_of_ne_nil h1, List.exists_cons_of_ne_nil h2⟩

/-- C10 witness: a leaf with one upper produces prepared items with the
non-empty snapshot `[5]`. -/
theorem C10_prepared_nonempty_witness :
    ((⟨[5], (1 : Int)⟩ : PreparedChange Int).uppers ≠ [] ∧
      (PreparedChangeRef.Borrowed [5] (1 : Int)).unpack.1 ≠ [] ∧
      (∃ u rest, (⟨[5], (1 : Int)⟩ : PreparedChange Int).uppers = u :: rest) ∧
      ∃ u rest, (PreparedChangeRef.Borrowed [5] (1 : Int)).unpack.1 =
        u :: rest) :=
  C10_prepared_nonempty addCtx (.Leaf [5]) (.Leaf [5]) 1 1 _ _ rfl rfl

/-- C7: on the spec §8 fixture (leaf 0 → A = 1 → R = 2, merge adds the delta
and forwards only on a 0-to-non-zero crossing), applying +1 at the leaf gives
A.Data = 1 and R.Data = 1; applying +1 again gives A.Data = 2 while R stays
at 1. -/
theorem C7_boundary_fixture :
    (apply_change boundaryCtx 3 fixtureState 0 1).map (fun s => (s 1, s 2)) =
      some (AggregationNode.Aggegating 1 [2], AggregationNode.Aggegating 1 [])
    ∧ ((apply_change boundaryCtx 3 fixtureState 0 1).bind fun s =>
        apply_change boundaryCtx 3 s 0 1).map (fun s => (s 1, s 2)) =
      some (AggregationNode.Aggegating 2 [2],
        AggregationNode.Aggegating 1 []) := by
  exact ⟨rfl, rfl⟩

/-- C8: the engine is not idempotent at the message level: with the integer
counter context, delivering the same +1 change twice to an aggregating root
leaves 2, while one delivery leaves 1, and the counting context shows the
merge runs once per delivery. -/
theorem C8_not_idempotent :
    ((apply_change addCtx 1 rootState 0 1).bind fun s =>
        apply_change addCtx 1 s 0 1).map (fun s => s 0) =
      some (AggregationNode.Aggegating (2 : Int) [])
    ∧ (apply_change addCtx 1 rootState 0 1).map (fun s => s 0) =
      some (AggregationNode.Aggegating (1 : Int) [])
    ∧ AggregationNode.Aggegating (2 : Int) ([] : List Nat) ≠
      AggregationNode.Aggegating (1 : Int) ([] : List Nat)
    ∧ (((AggregationNode.Aggegating ((0 : Int), 0) []).apply_change
          (countingCtx addCtx) 1).1.apply_change (countingCtx addCtx) 1).1 =
      AggregationNode.Aggegating ((2 : Int), 2) ([] : List Nat) := by
  refine ⟨rfl, rfl, by decide, rfl⟩

/-- C6: propagating a change from a leaf whose uppers are exactly {A, B},
where A and B are aggregating nodes with no uppers, invokes the merge exactly
once on A's data and once on B's data (invocation counters go 0 → 1), each
time with the change's forwarded form (the leaf forwards it verbatim), and
touches no other node. -/
theorem C6_fanout_merges_each_once {D Δ : Type} (ctx : Ctx D Δ) (da db : D)
    (change : Δ) (s : AggState (D × Nat)) (L A B : Nat) (fuel : Nat)
    (hLA : L ≠ A) (hLB : L ≠ B) (hAB : A ≠ B)
    (hL : s L = .Leaf [A, B]) (hA : s A = .Aggegating (da, 0) [])
    (hB : s B = .Aggegating (db, 0) []) :
    ∃ s', apply_change (countingCtx ctx) fuel s L change = some s' ∧
      s' A = .Aggegating ((ctx.applyChange da change).1, 1) [] ∧
      s' B = .Aggegating ((ctx.applyChange db change).1, 1) [] ∧
      ∀ i, i ≠ A → i ≠ B → s' i = s i := by
  have hs1A : setNode s L (AggregationNode.Leaf [A, B]) A =
      AggregationNode.Aggegating (da, 0) [] := by
    unfold setNode
    rw [if_neg fun h => hLA h.symm, hA]
  have hs2B : setNode (setNode s L (AggregationNode.Leaf [A, B])) A
      (AggregationNode.Aggegating ((ctx.applyChange da change).1, 1) []) B =
      AggregationNode.Aggegating (db, 0) [] := by
    unfold setNode
    rw [if_neg fun h => hAB h.symm, if_neg fun h => hLB h.symm, hB]
  refine ⟨setNode (setNode (setNode s L (.Leaf [A, B])) A
      (.Aggegating ((ctx.applyChange da change).1, 1) [])) B
      (.Aggegating ((ctx.applyChange db change).1, 1) []), ?_, ?_, ?_, ?_⟩
  · simp [apply_change, hL, AggregationNode.apply_change,
      PreparedChange.apply, prepareLevel, hs1A,
      AggregationNode.apply_change_ref, hs2B, countingCtx, applyLevels]
  · unfold setNode
    rw [if_neg fun h => hAB h, if_pos rfl]
  · unfold setNode
    rw [if_pos rfl]
  · intro i hiA hiB
    unfold setNode
    rw [if_neg hiB, if_neg hiA]
    by_cases hiL : i = L
    · rw [if_pos hiL, hiL, hL]
    · rw [if_neg hiL]

/-- Fixture for the C6 witness: leaf 0 fans out to aggregating roots 1 and
2, whose data carries a merge-invocation counter. -/
def fanoutState : AggState (Int × Nat) := fun n =>
  match n with
  | 0 => .Leaf [1, 2]
  | 1 => .Aggegating (5, 0) []
  | 2 => .Aggegating (7, 0) []
  | _ => .Leaf []

/-- C6 witness: the fan-out theorem applied to the concrete fixture. -/
theorem C6_fanout_merges_each_once_witness :
    ∃ s', apply_change (countingCtx addCtx) 4 fanoutState 0 1 = some s' ∧
      s' 1 = .Aggegating ((addCtx.applyChange 5 1).1, 1) [] ∧
      s' 2 = .Aggegating ((addCtx.applyChange 7 1).1, 1) [] ∧
      ∀ i, i ≠ 1 → i ≠ 2 → s' i = fanoutState i :=
  C6_fanout_merges_each_once addCtx 5 7 1 fanoutState 0 1 2 4
    (by decide) (by decide) (by decide) rfl rfl rfl

/-- Shape preservation between two hierarchy states: every node keeps its
upper links and its variant, and every leaf is kept entirely unchanged. -/
def framePres {D : Type} (s s' : AggState D) : Prop :=
  ∀ i, (s' i).uppersOf = (s i).uppersOf ∧ (s' i).isLeaf = (s i).isLeaf ∧
    ((s i).isLeaf = true → s' i = s i)

theorem framePres_refl {D : Type} (s : AggState D) : framePres s s :=
  fun _ => ⟨rfl, rfl, fun _ => rfl⟩

theorem framePres_trans {D : Type} {s t u : AggState D}
    (h1 : framePres s t) (h2 : framePres t u) : framePres s u := by
  intro i
  obtain ⟨ha1, ha2, ha3⟩ := h1 i
  obtain ⟨hb1, hb2, hb3⟩ := h2 i
  refine ⟨hb1.trans ha1, hb2.trans ha2, fun hl => ?_⟩
  rw [hb3 (ha2.trans hl), ha3 hl]

/-- `apply_change` leaves a node's uppers and variant unchanged and leaves a
leaf node fully unchanged. -/
theorem apply_change_shape {D Δ : Type} (ctx : Ctx D Δ)
    (n : AggregationNode D) (c : Δ) :
    ((n.apply_change ctx c).1).uppersOf = n.uppersOf ∧
    ((n.apply_change ctx c).1).isLeaf = n.isLeaf ∧
    (n.isLeaf = true → (n.apply_change ctx c).1 = n) := by
  cases n <;>
    simp [AggregationNode.apply_change, AggregationNode.uppersOf,
      AggregationNode.isLeaf]

/-- `apply_change_ref` leaves a node's uppers and variant unchanged and
leaves a leaf node fully unchanged. -/
theorem apply_change_ref_shape {D Δ : Type} (ctx : Ctx D Δ)
    (n : AggregationNode D) (c : Δ) :
    ((n.apply_change_ref ctx c).1).uppersOf = n.uppersOf ∧
    ((n.apply_change_ref ctx c).1).isLeaf = n.isLeaf ∧
    (n.isLeaf = true → (n.apply_change_ref ctx c).1 = n) := by
  cases n <;>
    simp [AggregationNode.apply_change_ref, AggregationNode.uppersOf,
      AggregationNode.isLeaf]

/-- Writing back a node whose shape matches the old one preserves frame. -/
theorem framePres_setNode {D : Type} (s : AggState D) (u : Nat)
    (n : AggregationNode D) (h1 : n.uppersOf = (s u).uppersOf)
    (h2 : n.isLeaf = (s u).isLeaf) (h3 : (s u).isLeaf = true → n = s u) :
    framePres s (setNode s u n) := by
  intro i
  unfold setNode
  by_cases hi : i = u
  · subst hi
    simpa using ⟨h1, h2, h3⟩
  · simp [hi]

theorem prepareLevel_cons_fst {D Δ : Type} (ctx : Ctx D Δ) (c : Δ)
    (s : AggState D) (u : Nat) (rest : List Nat) :
    (prepareLevel ctx c s (u :: rest)).1 =
      (prepareLevel ctx c (setNode s u ((s u).apply_change_ref ctx c).1)
        rest).1 := rfl

theorem prepareLevel_cons_snd {D Δ : Type} (ctx : Ctx D Δ) (c : Δ)
    (s : AggState D) (u : Nat) (rest : List Nat) :
    (prepareLevel ctx c s (u :: rest)).2 =
      (match ((s u).apply_change_ref ctx c).2 with
        | some pr =>
            pr :: (prepareLevel ctx c
              (setNode s u ((s u).apply_change_ref ctx c).1) rest).2
        | none =>
            (prepareLevel ctx c
              (setNode s u ((s u).apply_change_ref ctx c).1) rest).2) := rfl

/-- The prepare pass over an uppers snapshot preserves every node's shape. -/
theorem framePres_prepareLevel {D Δ : Type} (ctx : Ctx D Δ) (c : Δ) :
    ∀ (uppers : List Nat) (s : AggState D),
      framePres s (prepareLevel ctx c s uppers).1 := by
  intro uppers
  induction uppers with
  | nil => intro s; exact framePres_refl s
  | cons u rest ih =>
      intro s
      have hshape := apply_change_ref_shape ctx (s u) c
      have hstep : framePres s (setNode s u ((s u).apply_change_ref ctx c).1) :=
        framePres_setNode s u _ hshape.1 hshape.2.1 hshape.2.2
      rw [prepareLevel_cons_fst]
      exact framePres_trans hstep (ih _)

theorem processLevel_cons_fst {D Δ : Type} (ctx : Ctx D Δ) (s : AggState D)
    (it : PreparedChangeRef Δ) (rest : List (PreparedChangeRef Δ)) :
    (processLevel ctx s (it :: rest)).1 =
      (processLevel ctx (prepareLevel ctx it.unpack.2 s it.unpack.1).1
        rest).1 := rfl

theorem processLevel_cons_snd {D Δ : Type} (ctx : Ctx D Δ) (s : AggState D)
    (it : PreparedChangeRef Δ) (rest : List (PreparedChangeRef Δ)) :
    (processLevel ctx s (it :: rest)).2 =
      (prepareLevel ctx it.unpack.2 s it.unpack.1).2 ++
        (processLevel ctx (prepareLevel ctx it.unpack.2 s it.unpack.1).1
          rest).2 := rfl

/-- One level of the apply recursion preserves every node's shape. -/
theorem framePres_processLevel {D Δ : Type} (ctx : Ctx D Δ) :
    ∀ (items : List (PreparedChangeRef Δ)) (s : AggState D),
      framePres s (processLevel ctx s items).1 := by
  intro items
  induction items with
  | nil => intro s; exact framePres_refl s
  | cons it rest ih =>
      intro s
      rw [processLevel_cons_fst]
      exact framePres_trans (framePres_prepareLevel ctx _ _ s) (ih _)

/-- The level-by-level apply recursion preserves every node's shape. -/
theorem framePres_applyLevels {D Δ : Type} (ctx : Ctx D Δ) :
    ∀ (fuel : Nat) (items : List (PreparedChangeRef Δ)) (s s' : AggState D),
      applyLevels ctx fuel s items = some s' → framePres s s' := by
  intro fuel
  induction fuel with
  | zero =>
      intro items s s' h
      cases items with
      | nil =>
          injection h with h
          subst h
          exact framePres_refl s
      | cons it rest => exact Option.noConfusion h
  | succ fuel ih =>
      intro items s s' h
      cases items with
      | nil =>
          injection h with h
          subst h
          exact framePres_refl s
      | cons it rest =>
          exact framePres_trans (framePres_processLevel ctx _ s) (ih _ _ _ h)

/-- A node that is not a leaf is an aggregating node. -/
theorem eq_aggegating_of_not_leaf {D : Type} (n : AggregationNode D)
    (h : n.isLeaf = false) : ∃ d u, n = .Aggegating d u := by
  cases n with
  | Leaf uppers => simp [AggregationNode.isLeaf] at h
  | Aggegating d u => exact ⟨d, u, rfl⟩

theorem apply_change_eq {D Δ : Type} (ctx : Ctx D Δ) (fuel : Nat)
    (s : AggState D) (origin : Nat) (c : Δ) :
    apply_change ctx fuel s origin c =
      match ((s origin).apply_change ctx c).2 with
      | none => some (setNode s origin ((s origin).apply_change ctx c).1)
      | some p =>
          p.apply ctx fuel
            (setNode s origin ((s origin).apply_change ctx c).1) := rfl

theorem apply_change_ref_eq {D Δ : Type} (ctx : Ctx D Δ) (fuel : Nat)
    (s : AggState D) (origin : Nat) (c : Δ) :
    apply_change_ref ctx fuel s origin c =
      match ((s origin).apply_change_ref ctx c).2 with
      | none => some (setNode s origin ((s origin).apply_change_ref ctx c).1)
      | some p =>
          p.apply ctx fuel
            (setNode s origin ((s origin).apply_change_ref ctx c).1) := rfl

/-- The top-level owned entry point preserves every node's shape. -/
theorem framePres_apply_change {D Δ : Type} (ctx : Ctx D Δ) (fuel : Nat)
    (s : AggState D) (origin : Nat) (c : Δ) (s' : AggState D)
    (h : apply_change ctx fuel s origin c = some s') : framePres s s' := by
  rw [apply_change_eq] at h
  have hshape := apply_change_shape ctx (s origin) c
  have hstep : framePres s (setNode s origin ((s origin).apply_change ctx c).1) :=
    framePres_setNode s origin _ hshape.1 hshape.2.1 hshape.2.2
  cases hm : ((s origin).apply_change ctx c).2 with
  | none =>
      rw [hm] at h
      injection h with h
      subst h
      exact hstep
  | some p =>
      rw [hm] at h
      unfold PreparedChange.apply at h
      exact framePres_trans hstep
        (framePres_trans
          (framePres_prepareLevel ctx p.change p.uppers _)
          (framePres_applyLevels ctx fuel _ _ _ h))

/-- The top-level borrowed entry point preserves every node's shape. -/
theorem framePres_apply_change_ref {D Δ : Type} (ctx : Ctx D Δ) (fuel : Nat)
    (s : AggState D) (origin : Nat) (c : Δ) (s' : AggState D)
    (h : apply_change_ref ctx fuel s origin c = some s') : framePres s s' := by
  rw [apply_change_ref_eq] at h
  have hshape := apply_change_ref_shape ctx (s origin) c
  have hstep : framePres s
      (setNode s origin ((s origin).apply_change_ref ctx c).1) :=
    framePres_setNode s origin _ hshape.1 hshape.2.1 hshape.2.2
  cases hm : ((s origin).apply_change_ref ctx c).2 with
  | none =>
      rw [hm] at h
      injection h with h
      subst h
      exact hstep
  | some q =>
      rw [hm] at h
      unfold PreparedChangeRef.apply at h
      exact framePres_trans hstep
        (framePres_trans
          (framePres_prepareLevel ctx q.unpack.2 q.unpack.1 _)
          (framePres_applyLevels ctx fuel _ _ _ h))

/-- A changed node was and stays an aggregating node with the same uppers:
only its data differs. -/
theorem mutated_is_aggregating {D : Type} (a b : AggregationNode D)
    (h1 : b.uppersOf = a.uppersOf) (h2 : b.isLeaf = a.isLeaf)
    (h3 : a.isLeaf = true → b = a) (hne : b ≠ a) :
    ∃ d d' u, a = .Aggegating d u ∧ b = .Aggegating d' u := by
  cases a with
  | Leaf u => exact absurd (h3 rfl) hne
  | Aggegating d u =>
      obtain ⟨d', u', hb⟩ := eq_aggegating_of_not_leaf b
        (by simpa [AggregationNode.isLeaf] using h2)
      subst hb
      simp only [AggregationNode.uppersOf] at h1
      subst h1
      exact ⟨d, d', u', rfl, rfl⟩

/-- C9: under both top-level entry points (and hence through the whole
prepare/apply recursion), every node keeps its uppers and its variant, every
leaf node is completely unchanged, and any node that did change is an
aggregating node whose data alone was mutated; no node is created or
destroyed (the hierarchy is a total map whose domain never changes). -/
theorem C9_only_data_mutated {D Δ : Type} (ctx : Ctx D Δ) (fuel : Nat)
    (s : AggState D) (origin : Nat) (c : Δ) (s' s'' : AggState D) (i : Nat)
    (h : apply_change ctx fuel s origin c = some s')
    (h2 : apply_change_ref ctx fuel s origin c = some s'') :
    ((s' i).uppersOf = (s i).uppersOf ∧ (s' i).isLeaf = (s i).isLeaf ∧
      ((s i).isLeaf = true → s' i = s i) ∧
      (s' i ≠ s i →
        ∃ d d' u, s i = .Aggegating d u ∧ s' i = .Aggegating d' u))
    ∧ ((s'' i).uppersOf = (s i).uppersOf ∧ (s'' i).isLeaf = (s i).isLeaf ∧
      ((s i).isLeaf = true → s'' i = s i) ∧
      (s'' i ≠ s i →
        ∃ d d' u, s i = .Aggegating d u ∧ s'' i = .Aggegating d' u)) := by
  obtain ⟨f1, f2, f3⟩ := framePres_apply_change ctx fuel s origin c s' h i
  obtain ⟨g1, g2, g3⟩ := framePres_apply_change_ref ctx fuel s origin c s'' h2 i
  exact ⟨⟨f1, f2, f3, mutated_is_aggregating (s i) (s' i) f1 f2 f3⟩,
    ⟨g1, g2, g3, mutated_is_aggregating (s i) (s'' i) g1 g2 g3⟩⟩

/-- The state reached by the owned entry point on the §8 fixture. -/
def c9owned : AggState Int :=
  (apply_change boundaryCtx 3 fixtureState 0 1).getD fixtureState

/-- The state reached by the borrowed entry point on the §8 fixture. -/
def c9ref : AggState Int :=
  (apply_change_ref boundaryCtx 3 fixtureState 0 1).getD fixtureState

/-- C9 witness: the frame property at node 1 of the concrete fixture run. -/
theorem C9_only_data_mutated_witness :
    ((c9owned 1).uppersOf = (fixtureState 1).uppersOf ∧
      (c9owned 1).isLeaf = (fixtureState 1).isLeaf ∧
      ((fixtureState 1).isLeaf = true → c9owned 1 = fixtureState 1) ∧
      (c9owned 1 ≠ fixtureState 1 →
        ∃ d d' u, fixtureState 1 = .Aggegating d u ∧
          c9owned 1 = .Aggegating d' u))
    ∧ ((c9ref 1).uppersOf = (fixtureState 1).uppersOf ∧
      (c9ref 1).isLeaf = (fixtureState 1).isLeaf ∧
      ((fixtureState 1).isLeaf = true → c9ref 1 = fixtureState 1) ∧
      (c9ref 1 ≠ fixtureState 1 →
        ∃ d d' u, fixtureState 1 = .Aggegating d u ∧
          c9ref 1 = .Aggegating d' u)) :=
  C9_only_data_mutated boundaryCtx 3 fixtureState 0 1 c9owned c9ref 1 rfl rfl

/-- A rank function certifying that the upper links of `s` form a finite
acyclic graph: the rank strictly decreases along every upper link (for a
finite hierarchy this is equivalent to acyclicity of the upper-link
graph). -/
def ranked {D : Type} (r : Nat → Nat) (s : AggState D) : Prop :=
  ∀ i u, u ∈ (s i).uppersOf → r u < r i

theorem ranked_of_framePres {D : Type} {r : Nat → Nat} {s s' : AggState D}
    (hf : framePres s s') (hr : ranked r s) : ranked r s' := by
  intro i u hu
  exact hr i u (by rwa [(hf i).1] at hu)

/-- Bound on a prepared item: non-empty uppers, all of rank below `k`. -/
def itemBound {Δ : Type} (r : Nat → Nat) (k : Nat)
    (it : PreparedChangeRef Δ) : Prop :=
  it.unpack.1 ≠ [] ∧ ∀ u ∈ it.unpack.1, r u < k

/-- Items produced by a prepare pass over uppers of rank at most `k` are
bounded by `k`. -/
theorem prepareLevel_itemBound {D Δ : Type} (ctx : Ctx D Δ) (c : Δ)
    (r : Nat → Nat) (k : Nat) :
    ∀ (uppers : List Nat) (s : AggState D), ranked r s →
      (∀ u ∈ uppers, r u ≤ k) →
      ∀ it ∈ (prepareLevel ctx c s uppers).2, itemBound r k it := by
  intro uppers
  induction uppers with
  | nil => intro s _ _ it hit; simp [prepareLevel] at hit
  | cons u rest ih =>
      intro s hr hk it hit
      rw [prepareLevel_cons_snd] at hit
      have hnext : ranked r (setNode s u ((s u).apply_change_ref ctx c).1) := by
        have hshape := apply_change_ref_shape ctx (s u) c
        exact ranked_of_framePres
          (framePres_setNode s u _ hshape.1 hshape.2.1 hshape.2.2) hr
      have htail := ih (setNode s u ((s u).apply_change_ref ctx c).1) hnext
        (fun v hv => hk v (List.mem_cons_of_mem u hv))
      cases hm : ((s u).apply_change_ref ctx c).2 with
      | none =>
          rw [hm] at hit
          exact htail it hit
      | some pr =>
          rw [hm] at hit
          rcases List.mem_cons.mp hit with hpr | hit2
          · subst hpr
            obtain ⟨hup, hne⟩ := prepared_of_apply_change_ref ctx (s u) c it hm
            refine ⟨hne, fun w hw => ?_⟩
            rw [hup] at hw
            exact lt_of_lt_of_le (hr u w hw) (hk u (List.mem_cons_self u rest))
          · exact htail it hit2

/-- Items produced by one level whose items' uppers all have rank at most `k`
are bounded by `k`. -/
theorem processLevel_itemBound {D Δ : Type} (ctx : Ctx D Δ) (r : Nat → Nat)
    (k : Nat) :
    ∀ (items : List (PreparedChangeRef Δ)) (s : AggState D), ranked r s →
      (∀ it ∈ items, ∀ u ∈ it.unpack.1, r u ≤ k) →
      ∀ it ∈ (processLevel ctx s items).2, itemBound r k it := by
  intro items
  induction items with
  | nil => intro s _ _ it hit; simp [processLevel] at hit
  | cons it0 rest ih =>
      intro s hr hk it hit
      rw [processLevel_cons_snd] at hit
      rcases List.mem_append.mp hit with h1 | h2
      · exact prepareLevel_itemBound ctx it0.unpack.2 r k it0.unpack.1 s hr
          (hk it0 (List.mem_cons_self it0 rest)) it h1
      · have hran : ranked r (prepareLevel ctx it0.unpack.2 s it0.unpack.1).1 :=
          ranked_of_framePres (framePres_prepareLevel ctx _ _ s) hr
        exact ih _ hran
          (fun it2 hm u hu => hk it2 (List.mem_cons_of_mem it0 hm) u hu) it h2

theorem applyLevels_succ_cons {D Δ : Type} (ctx : Ctx D Δ) (k : Nat)
    (s : AggState D) (it : PreparedChangeRef Δ)
    (rest : List (PreparedChangeRef Δ)) :
    applyLevels ctx (k + 1) s (it :: rest) =
      applyLevels ctx k (processLevel ctx s (it :: rest)).1
        (processLevel ctx s (it :: rest)).2 := rfl

/-- The level-by-level apply recursion succeeds whenever all pending items
are rank-bounded by the available fuel. -/
theorem applyLevels_total {D Δ : Type} (ctx : Ctx D Δ) (r : Nat → Nat) :
    ∀ (k : Nat) (items : List (PreparedChangeRef Δ)) (s : AggState D),
      ranked r s → (∀ it ∈ items, itemBound r k it) →
      ∃ s', applyLevels ctx k s items = some s' := by
  intro k
  induction k with
  | zero =>
      intro items s hr hb
      cases items with
      | nil => exact ⟨s, rfl⟩
      | cons it rest =>
          obtain ⟨hne, hlt⟩ := hb it (List.mem_cons_self it rest)
          obtain ⟨u, us, hcons⟩ := List.exists_cons_of_ne_nil hne
          have := hlt u (by rw [hcons]; exact List.mem_cons_self u us)
          omega
  | succ k ih =>
      intro items s hr hb
      cases items with
      | nil => exact ⟨s, rfl⟩
      | cons it rest =>
          have hran : ranked r (processLevel ctx s (it :: rest)).1 :=
            ranked_of_framePres (framePres_processLevel ctx _ s) hr
          have hbnd := processLevel_itemBound ctx r k (it :: rest) s hr
            (fun it2 h2 u hu => Nat.lt_succ_iff.mp ((hb it2 h2).2 u hu))
          obtain ⟨s', hs'⟩ := ih _ _ hran hbnd
          exact ⟨s', by rw [applyLevels_succ_cons]; exact hs'⟩

/-- C4: on a hierarchy whose upper links admit a strictly decreasing rank
(the shallow form of "finite acyclic graph"), both top-level entry points
terminate with fuel equal to the origin's rank: the level-by-level apply
recursion always reaches a level with no prepared items, so each operation is
a total function of its inputs. -/
theorem C4_acyclic_terminates {D Δ : Type} (ctx : Ctx D Δ) (s : AggState D)
    (r : Nat → Nat) (origin : Nat) (c : Δ) (hr : ranked r s) :
    (∃ s', apply_change ctx (r origin) s origin c = some s')
    ∧ ∃ s'', apply_change_ref ctx (r origin) s origin c = some s'' := by
  constructor
  · rw [apply_change_eq]
    cases hm : ((s origin).apply_change ctx c).2 with
    | none => exact ⟨_, rfl⟩
    | some p =>
        have hshape := apply_change_shape ctx (s origin) c
        have hr1 : ranked r (setNode s origin ((s origin).apply_change ctx c).1) :=
          ranked_of_framePres
            (framePres_setNode s origin _ hshape.1 hshape.2.1 hshape.2.2) hr
        obtain ⟨hup, hne⟩ := prepared_of_apply_change ctx (s origin) c p hm
        have hub : ∀ u ∈ p.uppers, r u ≤ r origin := by
          intro u hu
          rw [hup] at hu
          exact le_of_lt (hr origin u hu)
        have hitems := prepareLevel_itemBound ctx p.change r (r origin)
          p.uppers _ hr1 hub
        have hran2 : ranked r (prepareLevel ctx p.change
            (setNode s origin ((s origin).apply_change ctx c).1) p.uppers).1 :=
          ranked_of_framePres (framePres_prepareLevel ctx _ _ _) hr1
        obtain ⟨s', hs'⟩ := applyLevels_total ctx r (r origin) _ _ hran2 hitems
        exact ⟨s', hs'⟩
  · rw [apply_change_ref_eq]
    cases hm : ((s origin).apply_change_ref ctx c).2 with
    | none => exact ⟨_, rfl⟩
    | some q =>
        have hshape := apply_change_ref_shape ctx (s origin) c
        have hr1 : ranked r
            (setNode s origin ((s origin).apply_change_ref ctx c).1) :=
          ranked_of_framePres
            (framePres_setNode s origin _ hshape.1 hshape.2.1 hshape.2.2) hr
        obtain ⟨hup, hne⟩ := prepared_of_apply_change_ref ctx (s origin) c q hm
        have hub : ∀ u ∈ q.unpack.1, r u ≤ r origin := by
          intro u hu
          rw [hup] at hu
          exact le_of_lt (hr origin u hu)
        have hitems := prepareLevel_itemBound ctx q.unpack.2 r (r origin)
          q.unpack.1 _ hr1 hub
        have hran2 : ranked r (prepareLevel ctx q.unpack.2
            (setNode s origin ((s origin).apply_change_ref ctx c).1)
            q.unpack.1).1 :=
          ranked_of_framePres (framePres_prepareLevel ctx _ _ _) hr1
        obtain ⟨s'', hs''⟩ := applyLevels_total ctx r (r origin) _ _ hran2 hitems
        exact ⟨s'', hs''⟩

/-- A rank function for the §8 fixture hierarchy. -/
def c4rank : Nat → Nat := fun n =>
  match n with
  | 0 => 2
  | 1 => 1
  | _ => 0

theorem c4rank_ranked : ranked c4rank fixtureState := by
  intro i u hu
  match i with
  | 0 =>
      simp [fixtureState, AggregationNode.uppersOf] at hu
      subst hu
      decide
  | 1 =>
      simp [fixtureState, AggregationNode.uppersOf] at hu
      subst hu
      decide
  | 2 => simp [fixtureState, AggregationNode.uppersOf] at hu
  | n + 3 => simp [fixtureState, AggregationNode.uppersOf] at hu

/-- C4 witness: both entry points terminate on the concrete fixture with fuel
equal to the origin's rank. -/
theorem C4_acyclic_terminates_witness :
    (∃ s', apply_change boundaryCtx (c4rank 0) fixtureState 0 1 = some s')
    ∧ ∃ s'', apply_change_ref boundaryCtx (c4rank 0) fixtureState 0 1 =
      some s'' :=
  C4_acyclic_terminates boundaryCtx fixtureState c4rank 0 1 c4rank_ranked

/-- A guard acquisition or release event on a node, used to audit the lock
discipline of an execution. -/
inductive LockEvent where
  | lock (i : Nat)
  | unlock (i : Nat)
deriving DecidableEq

/-- Checks a trace of guard events starting from the currently held guard: a
guard may be acquired only while none is held and released only if it is the
one held.  A trace accepted by this check never has two guards held at any
point. -/
def locksOk : Option Nat → List LockEvent → Bool
  | _, [] => true
  | none, .lock i :: rest => locksOk (some i) rest
  | some _, .lock _ :: _ => false
  | some j, .unlock i :: rest => if i = j then locksOk none rest else false
  | none, .unlock _ :: _ => false

/-- `prepareLevel`, instrumented with guard events: each upper's guard is
acquired, `apply_change_ref` runs under it, and it is released before the
next upper is touched. -/
def prepareLevelT {D Δ : Type} (ctx : Ctx D Δ) (change : Δ) :
    AggState D → List Nat →
      (AggState D × List (PreparedChangeRef Δ)) × List LockEvent
  | s, [] => ((s, []), [])
  | s, u :: rest =>
      let r := (s u).apply_change_ref ctx change
      let rec1 := prepareLevelT ctx change (setNode s u r.1) rest
      ((rec1.1.1,
        match r.2 with
        | some pr => pr :: rec1.1.2
        | none => rec1.1.2),
       LockEvent.lock u :: LockEvent.unlock u :: rec1.2)

/-- `processLevel`, instrumented with guard events. -/
def processLevelT {D Δ : Type} (ctx : Ctx D Δ) :
    AggState D → List (PreparedChangeRef Δ) →
      (AggState D × List (PreparedChangeRef Δ)) × List LockEvent
  | s, [] => ((s, []), [])
  | s, it :: rest =>
      let r1 := prepareLevelT ctx it.unpack.2 s it.unpack.1
      let r2 := processLevelT ctx r1.1.1 rest
      ((r2.1.1, r1.1.2 ++ r2.1.2), r1.2 ++ r2.2)

/-- `applyLevels`, instrumented with guard events. -/
def applyLevelsT {D Δ : Type} (ctx : Ctx D Δ) :
    Nat → AggState D → List (PreparedChangeRef Δ) →
      Option (AggState D × List LockEvent)
  | _, s, [] => some (s, [])
  | 0, _, _ :: _ => none
  | fuel + 1, s, it :: rest =>
      match applyLevelsT ctx fuel (processLevelT ctx s (it :: rest)).1.1
          (processLevelT ctx s (it :: rest)).1.2 with
      | none => none
      | some st => some (st.1, (processLevelT ctx s (it :: rest)).2 ++ st.2)

/-- Top-level `apply_change`, instrumented with guard events.  The trace
starts while the caller-supplied guard on the origin is held: the prepare
step runs under it and its release is the first event. -/
def apply_changeT {D Δ : Type} (ctx : Ctx D Δ) (fuel : Nat) (s : AggState D)
    (origin : Nat) (change : Δ) : Option (AggState D × List LockEvent) :=
  let r := (s origin).apply_change ctx change
  match r.2 with
  | none => some (setNode s origin r.1, [LockEvent.unlock origin])
  | some p =>
      match applyLevelsT ctx fuel
          (prepareLevelT ctx p.change (setNode s origin r.1) p.uppers).1.1
          (prepareLevelT ctx p.change (setNode s origin r.1) p.uppers).1.2 with
      | none => none
      | some st =>
          some (st.1, LockEvent.unlock origin ::
            (prepareLevelT ctx p.change (setNode s origin r.1) p.uppers).2 ++
              st.2)

/-- Top-level `apply_change_ref`, instrumented with guard events. -/
def apply_change_refT {D Δ : Type} (ctx : Ctx D Δ) (fuel : Nat)
    (s : AggState D) (origin : Nat) (change : Δ) :
    Option (AggState D × List LockEvent) :=
  let r := (s origin).apply_change_ref ctx change
  match r.2 with
  | none => some (setNode s origin r.1, [LockEvent.unlock origin])
  | some p =>
      match applyLevelsT ctx fuel
          (prepareLevelT ctx p.unpack.2 (setNode s origin r.1) p.unpack.1).1.1
          (prepareLevelT ctx p.unpack.2 (setNode s origin r.1)
            p.unpack.1).1.2 with
      | none => none
      | some st =>
          some (st.1, LockEvent.unlock origin ::
            (prepareLevelT ctx p.unpack.2 (setNode s origin r.1)
              p.unpack.1).2 ++ st.2)

/-- The instrumented prepare pass computes exactly what `prepareLevel`
computes. -/
theorem prepareLevelT_fst {D Δ : Type} (ctx : Ctx D Δ) (c : Δ) :
    ∀ (uppers : List Nat) (s : AggState D),
      (prepareLevelT ctx c s uppers).1 = prepareLevel ctx c s uppers := by
  intro uppers
  induction uppers with
  | nil => intro s; rfl
  | cons u rest ih =>
      intro s
      cases hm : ((s u).apply_change_ref ctx c).2 <;>
        simp [prepareLevelT, prepareLevel, hm, ih]

/-- The instrumented level step computes exactly what `processLevel`
computes. -/
theorem processLevelT_fst {D Δ : Type} (ctx : Ctx D Δ) :
    ∀ (items : List (PreparedChangeRef Δ)) (s : AggState D),
      (processLevelT ctx s items).1 = processLevel ctx s items := by
  intro items
  induction items with
  | nil => intro s; rfl
  | cons it rest ih =>
      intro s
      simp [processLevelT, processLevel, prepareLevelT_fst, ih]

/-- The instrumented apply recursion computes exactly what `applyLevels`
computes. -/
theorem applyLevelsT_fst {D Δ : Type} (ctx : Ctx D Δ) :
    ∀ (fuel : Nat) (items : List (PreparedChangeRef Δ)) (s : AggState D),
      (applyLevelsT ctx fuel s items).map Prod.fst =
        applyLevels ctx fuel s items := by
  intro fuel
  induction fuel with
  | zero =>
      intro items s
      cases items with
      | nil => rfl
      | cons it rest => rfl
  | succ fuel ih =>
      intro items s
      cases items with
      | nil => rfl
      | cons it rest =>
          rw [applyLevels_succ_cons]
          have hP := processLevelT_fst ctx (it :: rest) s
          rw [show applyLevelsT ctx (fuel + 1) s (it :: rest) =
              (match applyLevelsT ctx fuel
                  (processLevelT ctx s (it :: rest)).1.1
                  (processLevelT ctx s (it :: rest)).1.2 with
                | none => none
                | some st =>
                    some (st.1,
                      (processLevelT ctx s (it :: rest)).2 ++ st.2)) from rfl]
          cases hrec : applyLevelsT ctx fuel (processLevelT ctx s (it :: rest)).1.1
              (processLevelT ctx s (it :: rest)).1.2 with
          | none =>
              have := ih (processLevelT ctx s (it :: rest)).1.2
                (processLevelT ctx s (it :: rest)).1.1
              rw [hrec] at this
              simp only [Option.map_none'] at this
              rw [hP] at this
              simp [← this]
          | some st =>
              have := ih (processLevelT ctx s (it :: rest)).1.2
                (processLevelT ctx s (it :: rest)).1.1
              rw [hrec] at this
              simp only [Option.map_some'] at this
              rw [hP] at this
              simp [← this]

theorem apply_changeT_eq {D Δ : Type} (ctx : Ctx D Δ) (fuel : Nat)
    (s : AggState D) (origin : Nat) (c : Δ) :
    apply_changeT ctx fuel s origin c =
      match ((s origin).apply_change ctx c).2 with
      | none =>
          some (setNode s origin ((s origin).apply_change ctx c).1,
            [LockEvent.unlock origin])
      | some p =>
          match applyLevelsT ctx fuel
              (prepareLevelT ctx p.change
                (setNode s origin ((s origin).apply_change ctx c).1)
                p.uppers).1.1
              (prepareLevelT ctx p.change
                (setNode s origin ((s origin).apply_change ctx c).1)
                p.uppers).1.2 with
          | none => none
          | some st =>
              some (st.1, LockEvent.unlock origin ::
                (prepareLevelT ctx p.change
                  (setNode s origin ((s origin).apply_change ctx c).1)
                  p.uppers).2 ++ st.2) := rfl

theorem apply_change_refT_eq {D Δ : Type} (ctx : Ctx D Δ) (fuel : Nat)
    (s : AggState D) (origin : Nat) (c : Δ) :
    apply_change_refT ctx fuel s origin c =
      match ((s origin).apply_change_ref ctx c).2 with
      | none =>
          some (setNode s origin ((s origin).apply_change_ref ctx c).1,
            [LockEvent.unlock origin])
      | some p =>
          match applyLevelsT ctx fuel
              (prepareLevelT ctx p.unpack.2
                (setNode s origin ((s origin).apply_change_ref ctx c).1)
                p.unpack.1).1.1
              (prepareLevelT ctx p.unpack.2
                (setNode s origin ((s origin).apply_change_ref ctx c).1)
                p.unpack.1).1.2 with
          | none => none
          | some st =>
              some (st.1, LockEvent.unlock origin ::
                (prepareLevelT ctx p.unpack.2
                  (setNode s origin ((s origin).apply_change_ref ctx c).1)
                  p.unpack.1).2 ++ st.2) := rfl

/-- The instrumented owned entry point computes exactly what `apply_change`
computes. -/
theorem apply_changeT_fst {D Δ : Type} (ctx : Ctx D Δ) (fuel : Nat)
    (s : AggState D) (origin : Nat) (c : Δ) :
    (apply_changeT ctx fuel s origin c).map Prod.fst =
      apply_change ctx fuel s origin c := by
  rw [apply_changeT_eq, apply_change_eq]
  cases hm : ((s origin).apply_change ctx c).2 with
  | none => rfl
  | some p =>
      unfold PreparedChange.apply
      dsimp only
      rw [← prepareLevelT_fst ctx p.change p.uppers
        (setNode s origin ((s origin).apply_change ctx c).1)]
      rw [← applyLevelsT_fst]
      cases applyLevelsT ctx fuel
          (prepareLevelT ctx p.change
            (setNode s origin ((s origin).apply_change ctx c).1) p.uppers).1.1
          (prepareLevelT ctx p.change
            (setNode s origin ((s origin).apply_change ctx c).1)
            p.uppers).1.2 with
      | none => rfl
      | some st => rfl

/-- The instrumented borrowed entry point computes exactly what
`apply_change_ref` computes. -/
theorem apply_change_refT_fst {D Δ : Type} (ctx : Ctx D Δ) (fuel : Nat)
    (s : AggState D) (origin : Nat) (c : Δ) :
    (apply_change_refT ctx fuel s origin c).map Prod.fst =
      apply_change_ref ctx fuel s origin c := by
  rw [apply_change_refT_eq, apply_change_ref_eq]
  cases hm : ((s origin).apply_change_ref ctx c).2 with
  | none => rfl
  | some p =>
      unfold PreparedChangeRef.apply
      dsimp only
      rw [← prepareLevelT_fst ctx p.unpack.2 p.unpack.1
        (setNode s origin ((s origin).apply_change_ref ctx c).1)]
      rw [← applyLevelsT_fst]
      cases applyLevelsT ctx fuel
          (prepareLevelT ctx p.unpack.2
            (setNode s origin ((s origin).apply_change_ref ctx c).1)
            p.unpack.1).1.1
          (prepareLevelT ctx p.unpack.2
            (setNode s origin ((s origin).apply_change_ref ctx c).1)
            p.unpack.1).1.2 with
      | none => rfl
      | some st => rfl

theorem locksOk_lock_unlock (u : Nat) (l : List LockEvent) :
    locksOk none (LockEvent.lock u :: LockEvent.unlock u :: l) =
      locksOk none l := by
  simp [locksOk]

theorem prepareLevelT_cons_snd {D Δ : Type} (ctx : Ctx D Δ) (c : Δ)
    (s : AggState D) (u : Nat) (rest : List Nat) :
    (prepareLevelT ctx c s (u :: rest)).2 =
      LockEvent.lock u :: LockEvent.unlock u ::
        (prepareLevelT ctx c (setNode s u ((s u).apply_change_ref ctx c).1)
          rest).2 := rfl

/-- The guard events of a prepare pass are balanced lock/unlock pairs: they
consume nothing from the rest of the trace. -/
theorem prepareLevelT_locks {D Δ : Type} (ctx : Ctx D Δ) (c : Δ) :
    ∀ (uppers : List Nat) (s : AggState D) (tail : List LockEvent),
      locksOk none ((prepareLevelT ctx c s uppers).2 ++ tail) =
        locksOk none tail := by
  intro uppers
  induction uppers with
  | nil => intro s tail; rfl
  | cons u rest ih =>
      intro s tail
      rw [prepareLevelT_cons_snd, List.cons_append, List.cons_append,
        locksOk_lock_unlock]
      exact ih _ _

theorem processLevelT_cons_snd {D Δ : Type} (ctx : Ctx D Δ) (s : AggState D)
    (it : PreparedChangeRef Δ) (rest : List (PreparedChangeRef Δ)) :
    (processLevelT ctx s (it :: rest)).2 =
      (prepareLevelT ctx it.unpack.2 s it.unpack.1).2 ++
        (processLevelT ctx
          (prepareLevelT ctx it.unpack.2 s it.unpack.1).1.1 rest).2 := rfl

/-- The guard events of one level of the apply recursion are balanced. -/
theorem processLevelT_locks {D Δ : Type} (ctx : Ctx D Δ) :
    ∀ (items : List (PreparedChangeRef Δ)) (s : AggState D)
      (tail : List LockEvent),
      locksOk none ((processLevelT ctx s items).2 ++ tail) =
        locksOk none tail := by
  intro items
  induction items with
  | nil => intro s tail; rfl
  | cons it rest ih =>
      intro s tail
      rw [processLevelT_cons_snd, List.append_assoc, prepareLevelT_locks]
      exact ih _ _

theorem applyLevelsT_succ_cons {D Δ : Type} (ctx : Ctx D Δ) (fuel : Nat)
    (s : AggState D) (it : PreparedChangeRef Δ)
    (rest : List (PreparedChangeRef Δ)) :
    applyLevelsT ctx (fuel + 1) s (it :: rest) =
      match applyLevelsT ctx fuel (processLevelT ctx s (it :: rest)).1.1
          (processLevelT ctx s (it :: rest)).1.2 with
      | none => none
      | some st =>
          some (st.1, (processLevelT ctx s (it :: rest)).2 ++ st.2) := rfl

/-- The guard events of a completed apply recursion are balanced. -/
theorem applyLevelsT_locks {D Δ : Type} (ctx : Ctx D Δ) :
    ∀ (fuel : Nat) (items : List (PreparedChangeRef Δ)) (s s' : AggState D)
      (tr : List LockEvent),
      applyLevelsT ctx fuel s items = some (s', tr) →
      ∀ tail, locksOk none (tr ++ tail) = locksOk none tail := by
  intro fuel
  induction fuel with
  | zero =>
      intro items s s' tr h tail
      cases items with
      | nil =>
          injection h with h
          have h2 : tr = [] := (congrArg Prod.snd h).symm
          rw [h2]
          rfl
      | cons it rest => exact Option.noConfusion h
  | succ fuel ih =>
      intro items s s' tr h tail
      cases items with
      | nil =>
          injection h with h
          have h2 : tr = [] := (congrArg Prod.snd h).symm
          rw [h2]
          rfl
      | cons it rest =>
          rw [applyLevelsT_succ_cons] at h
          cases hrec : applyLevelsT ctx fuel
              (processLevelT ctx s (it :: rest)).1.1
              (processLevelT ctx s (it :: rest)).1.2 with
          | none =>
              rw [hrec] at h
              exact Option.noConfusion h
          | some st =>
              rw [hrec] at h
              injection h with h
              have h2 : tr = (processLevelT ctx s (it :: rest)).2 ++ st.2 :=
                (congrArg Prod.snd h).symm
              rw [h2, List.append_assoc, processLevelT_locks]
              exact ih (processLevelT ctx s (it :: rest)).1.2
                (processLevelT ctx s (it :: rest)).1.1 st.1 st.2 hrec tail

theorem locksOk_unlock_same (u : Nat) (l : List LockEvent) :
    locksOk (some u) (LockEvent.unlock u :: l) = locksOk none l := by
  simp [locksOk]

/-- A completed instrumented `apply_change` run, entered while the origin's
guard is held, releases that guard first and then never holds more than one
guard at a time. -/
theorem apply_changeT_locks {D Δ : Type} (ctx : Ctx D Δ) (fuel : Nat)
    (s : AggState D) (origin : Nat) (c : Δ) (s' : AggState D)
    (tr : List LockEvent)
    (h : apply_changeT ctx fuel s origin c = some (s', tr)) :
    (∃ rest, tr = LockEvent.unlock origin :: rest) ∧
      locksOk (some origin) tr = true := by
  rw [apply_changeT_eq] at h
  cases hm : ((s origin).apply_change ctx c).2 with
  | none =>
      rw [hm] at h
      injection h with h
      have h2 : tr = [LockEvent.unlock origin] := (congrArg Prod.snd h).symm
      subst h2
      exact ⟨⟨[], rfl⟩, by simp [locksOk]⟩
  | some p =>
      rw [hm] at h
      dsimp only at h
      cases hrec : applyLevelsT ctx fuel
          (prepareLevelT ctx p.change
            (setNode s origin ((s origin).apply_change ctx c).1) p.uppers).1.1
          (prepareLevelT ctx p.change
            (setNode s origin ((s origin).apply_change ctx c).1)
            p.uppers).1.2 with
      | none =>
          rw [hrec] at h
          exact Option.noConfusion h
      | some st =>
          rw [hrec] at h
          injection h with h
          have h2 : tr = LockEvent.unlock origin ::
              (prepareLevelT ctx p.change
                (setNode s origin ((s origin).apply_change ctx c).1)
                p.uppers).2 ++ st.2 :=
            (congrArg Prod.snd h).symm
          subst h2
          refine ⟨⟨_, rfl⟩, ?_⟩
          rw [List.cons_append, locksOk_unlock_same, prepareLevelT_locks]
          have hb := applyLevelsT_locks ctx fuel _ _ st.1 st.2 hrec []
          rw [List.append_nil] at hb
          rw [hb]
          rfl

/-- A completed instrumented `apply_change_ref` run, entered while the
origin's guard is held, releases that guard first and then never holds more
than one guard at a time. -/
theorem apply_change_refT_locks {D Δ : Type} (ctx : Ctx D Δ) (fuel : Nat)
    (s : AggState D) (origin : Nat) (c : Δ) (s' : AggState D)
    (tr : List LockEvent)
    (h : apply_change_refT ctx fuel s origin c = some (s', tr)) :
    (∃ rest, tr = LockEvent.unlock origin :: rest) ∧
      locksOk (some origin) tr = true := by
  rw [apply_change_refT_eq] at h
  cases hm : ((s origin).apply_change_ref ctx c).2 with
  | none =>
      rw [hm] at h
      injection h with h
      have h2 : tr = [LockEvent.unlock origin] := (congrArg Prod.snd h).symm
      subst h2
      exact ⟨⟨[], rfl⟩, by simp [locksOk]⟩
  | some p =>
      rw [hm] at h
      dsimp only at h
      cases hrec : applyLevelsT ctx fuel
          (prepareLevelT ctx p.unpack.2
            (setNode s origin ((s origin).apply_change_ref ctx c).1)
            p.unpack.1).1.1
          (prepareLevelT ctx p.unpack.2
            (setNode s origin ((s origin).apply_change_ref ctx c).1)
            p.unpack.1).1.2 with
      | none =>
          rw [hrec] at h
          exact Option.noConfusion h
      | some st =>
          rw [hrec] at h
          injection h with h
          have h2 : tr = LockEvent.unlock origin ::
              (prepareLevelT ctx p.unpack.2
                (setNode s origin ((s origin).apply_change_ref ctx c).1)
                p.unpack.1).2 ++ st.2 :=
            (congrArg Prod.snd h).symm
          subst h2
          refine ⟨⟨_, rfl⟩, ?_⟩
          rw [List.cons_append, locksOk_unlock_same, prepareLevelT_locks]
          have hb := applyLevelsT_locks ctx fuel _ _ st.1 st.2 hrec []
          rw [List.append_nil] at hb
          rw [hb]
          rfl

/-- C3: in any completed execution of either top-level entry point, the one
prepare step on the origin runs under the caller-supplied guard and that
guard's release is the very first guard event — before any upper node is
resolved; thereafter every upper's guard is acquired only while no guard is
held and released before any other guard is acquired (`locksOk` from the
origin-held start), so no two node guards are ever held simultaneously.  The
instrumented runs compute exactly what `apply_change` / `apply_change_ref`
compute. -/
theorem C3_single_lock_discipline {D Δ : Type} (ctx : Ctx D Δ) (fuel : Nat)
    (s : AggState D) (origin : Nat) (c : Δ) (s' s'' : AggState D)
    (tr tr' : List LockEvent)
    (h : apply_changeT ctx fuel s origin c = some (s', tr))
    (h2 : apply_change_refT ctx fuel s origin c = some (s'', tr')) :
    ((∃ rest, tr = LockEvent.unlock origin :: rest)
      ∧ locksOk (some origin) tr = true
      ∧ apply_change ctx fuel s origin c = some s')
    ∧ ((∃ rest, tr' = LockEvent.unlock origin :: rest)
      ∧ locksOk (some origin) tr' = true
      ∧ apply_change_ref ctx fuel s origin c = some s'') := by
  obtain ⟨he, hl⟩ := apply_changeT_locks ctx fuel s origin c s' tr h
  obtain ⟨he2, hl2⟩ := apply_change_refT_locks ctx fuel s origin c s'' tr' h2
  refine ⟨⟨he, hl, ?_⟩, he2, hl2, ?_⟩
  · rw [← apply_changeT_fst, h]
    rfl
  · rw [← apply_change_refT_fst, h2]
    rfl

/-- The instrumented owned run on the §8 fixture. -/
def c3owned : AggState Int × List LockEvent :=
  (apply_changeT boundaryCtx 3 fixtureState 0 1).getD (fixtureState, [])

/-- The instrumented borrowed run on the §8 fixture. -/
def c3ref : AggState Int × List LockEvent :=
  (apply_change_refT boundaryCtx 3 fixtureState 0 1).getD (fixtureState, [])

/-- C3 witness: the lock-discipline theorem at the concrete fixture run. -/
theorem C3_single_lock_discipline_witness :
    ((∃ rest, c3owned.2 = LockEvent.unlock 0 :: rest)
      ∧ locksOk (some 0) c3owned.2 = true
      ∧ apply_change boundaryCtx 3 fixtureState 0 1 = some c3owned.1)
    ∧ ((∃ rest, c3ref.2 = LockEvent.unlock 0 :: rest)
      ∧ locksOk (some 0) c3ref.2 = true
      ∧ apply_change_ref boundaryCtx 3 fixtureState 0 1 = some c3ref.1) :=
  C3_single_lock_discipline boundaryCtx 3 fixtureState 0 1 c3owned.1 c3ref.1
    c3owned.2 c3ref.2 rfl rfl
